import Mathlib

/-!
# Verification of the rabbit grooming log application (`src/app.py`)

This file shallowly embeds the persistence core of `app.py`:

* the photo-reference cell codec `split_photos` / `join_photos`;
* the fixed-format timestamp helpers `to_dt_str` / `parse_dt_str`
  (`datetime.strftime` / `datetime.strptime` with `"%Y-%m-%d %H:%M"`);
* the flexible coercion `pd.to_datetime(..., errors="coerce")` used by
  `load_log` (modelled on the ISO-style inputs this development exercises);
* the per-subject session-log table operations `load_log`, `append_log_row`
  and `delete_one_photo_from_row`, and the master-roster mutation performed
  by the "record completed session" handler of tab 2.

A CSV table is modelled as a header (list of column names) plus rows of
string cells; an empty cell is the empty string (pandas `NaN` on a text
column round-trips through `""`/`"nan"`, which the codec handles explicitly,
exactly as the Python does).
-/

/-- Python `str.strip` whitespace class (ASCII whitespace, which is all the
source ever feeds it). -/
def isPySpace (c : Char) : Bool :=
  c = ' ' || c = '\t' || c = '\n' || c = '\r' || c = '\x0b' || c = '\x0c'

/-- Left part of Python `str.strip`. -/
def trimLeftChars (l : List Char) : List Char := l.dropWhile isPySpace

/-- Right part of Python `str.strip`. -/
def trimRightChars (l : List Char) : List Char := (l.reverse.dropWhile isPySpace).reverse

/-- Python `str.strip` on a character list. -/
def stripChars (l : List Char) : List Char := trimRightChars (trimLeftChars l)

/-- Python `str.strip` on a string. -/
def pyStrip (s : String) : String := String.mk (stripChars s.data)

/-- Python `str.lower` on a character list (ASCII case, enough for the
`"nan"` comparison in the source). -/
def lowerChars (l : List Char) : List Char := l.map Char.toLower

/-- Python `str.lower` on a string. -/
def pyLower (s : String) : String := String.mk (lowerChars s.data)

/-- Python `s.split(sep)` for a single-character separator:
`"".split("|") = [""]`, `"a|".split("|") = ["a", ""]`, etc. -/
def splitOnChar (sep : Char) : List Char → List (List Char)
  | [] => [[]]
  | c :: cs =>
    match splitOnChar sep cs with
    | [] => [[]]
    | p :: ps => if c = sep then [] :: p :: ps else (c :: p) :: ps

/-- Python `sep.join(parts)` for a single-character separator. -/
def joinChars (sep : Char) : List (List Char) → List Char
  | [] => []
  | [x] => x
  | x :: y :: ys => x ++ sep :: joinChars sep (y :: ys)

/-- `split_photos` from `app.py`: CSV photo cell → list of file names.
`cell is None` is subsumed by the empty string; `str(cell)` is the cell
itself in this string-cell model. -/
def split_photos (cell : String) : List String :=
  let s := stripChars cell.data
  if s = [] then []
  else if lowerChars s = "nan".data then []
  else (((splitOnChar '|' s).map stripChars).filter (fun p => p ≠ [])).map String.mk

/-- `join_photos` from `app.py`: list of file names → CSV photo cell.
The Python keeps `f` with `if f and str(f).strip()` and joins the stripped
names with `"|"`. -/
def join_photos (files : List String) : String :=
  let kept := (files.filter (fun f => !(f == "") && !(pyStrip f == ""))).map pyStrip
  String.mk (joinChars '|' (kept.map String.data))

/-! ## Timestamps -/

/-- A parsed `datetime` value (the only fields the app ever renders or
compares). -/
structure DT where
  year : Nat
  month : Nat
  day : Nat
  hour : Nat
  minute : Nat
  second : Nat
deriving DecidableEq, Repr

/-- Gregorian leap-year rule, as implemented by Python's `datetime`. -/
def isLeapYear (y : Nat) : Bool :=
  y % 4 == 0 && (y % 100 != 0 || y % 400 == 0)

/-- Days in a month, as validated by Python's `datetime`. -/
def daysInMonth (y m : Nat) : Nat :=
  if m = 2 then (if isLeapYear y then 29 else 28)
  else if m = 4 ∨ m = 6 ∨ m = 9 ∨ m = 11 then 30
  else 31

/-- The calendar values `datetime(...)` accepts. -/
def validDT (d : DT) : Prop :=
  1 ≤ d.year ∧ d.year ≤ 9999 ∧ 1 ≤ d.month ∧ d.month ≤ 12 ∧
  1 ≤ d.day ∧ d.day ≤ daysInMonth d.year d.month ∧
  d.hour ≤ 23 ∧ d.minute ≤ 59 ∧ d.second ≤ 59

instance (d : DT) : Decidable (validDT d) := by
  unfold validDT; infer_instance

/-- Two decimal digits, zero padded (`strftime` `%m`, `%d`, `%H`, `%M`; the
fallback branch for out-of-range inputs is never reached on valid dates). -/
def pad2Chars (n : Nat) : List Char :=
  if n < 100 then [Nat.digitChar (n / 10), Nat.digitChar (n % 10)]
  else (toString n).data

/-- Four decimal digits, zero padded (`strftime` `%Y`). -/
def pad4Chars (n : Nat) : List Char :=
  if n < 10000 then
    [Nat.digitChar (n / 1000), Nat.digitChar (n / 100 % 10),
     Nat.digitChar (n / 10 % 10), Nat.digitChar (n % 10)]
  else (toString n).data

/-- The character rendering of `dt.strftime("%Y-%m-%d %H:%M")`. -/
def dtChars (d : DT) : List Char :=
  pad4Chars d.year ++ '-' :: pad2Chars d.month ++ '-' :: pad2Chars d.day ++
    ' ' :: pad2Chars d.hour ++ ':' :: pad2Chars d.minute

/-- `to_dt_str` from `app.py`: `dt.strftime("%Y-%m-%d %H:%M")`. -/
def to_dt_str (d : DT) : String := String.mk (dtChars d)

/-- Decimal value of a digit string. -/
def digitsVal (l : List Char) : Nat := l.foldl (fun a c => a * 10 + (c.toNat - 48)) 0

/-- `strptime`-style numeric field: 1 to `maxLen` decimal digits. -/
def parseDigits (l : List Char) (maxLen : Nat) : Option Nat :=
  if l.isEmpty then none
  else if maxLen < l.length then none
  else if l.all Char.isDigit then some (digitsVal l) else none

/-- Range check performed by the `datetime` constructor. -/
def checkDT (y mo d h mi s : Nat) : Option DT :=
  if 1 ≤ y ∧ y ≤ 9999 ∧ 1 ≤ mo ∧ mo ≤ 12 ∧ 1 ≤ d ∧ d ≤ daysInMonth y mo ∧
      h ≤ 23 ∧ mi ≤ 59 ∧ s ≤ 59
  then some ⟨y, mo, d, h, mi, s⟩ else none

/-- `parse_dt_str` from `app.py`:
`datetime.strptime(s.strip(), "%Y-%m-%d %H:%M")`, returning `none` instead
of raising, and `none` for blank input. -/
def parse_dt_str (s : String) : Option DT :=
  let t := stripChars s.data
  if t = [] then none
  else
    match splitOnChar ' ' t with
    | [d, tm] =>
      match splitOnChar '-' d, splitOnChar ':' tm with
      | [y, mo, dd], [h, mi] =>
        match parseDigits y 4, parseDigits mo 2, parseDigits dd 2,
              parseDigits h 2, parseDigits mi 2 with
        | some yv, some mov, some dv, some hv, some miv => checkDT yv mov dv hv miv 0
        | _, _, _, _, _ => none
      | _, _ => none
    | _ => none

/-- The `YYYY-MM-DD` date part accepted by the flexible parser. -/
def parseIsoDate (d : List Char) : Option (Nat × Nat × Nat) :=
  match splitOnChar '-' d with
  | [y, mo, dd] =>
    if y.length = 4 then
      match parseDigits y 4, parseDigits mo 2, parseDigits dd 2 with
      | some yv, some mov, some dv => some (yv, mov, dv)
      | _, _, _ => none
    else none
  | _ => none

/-- The `HH:MM` / `HH:MM:SS` clock part accepted by the flexible parser. -/
def parseClock (tm : List Char) : Option (Nat × Nat × Nat) :=
  match splitOnChar ':' tm with
  | [h, mi] =>
    match parseDigits h 2, parseDigits mi 2 with
    | some hv, some miv => some (hv, miv, 0)
    | _, _ => none
  | [h, mi, ss] =>
    match parseDigits h 2, parseDigits mi 2, parseDigits ss 2 with
    | some hv, some miv, some sv => some (hv, miv, sv)
    | _, _, _ => none
  | _ => none

/-- Model of `pd.to_datetime(cell, errors="coerce")` on one cell, restricted
to the ISO-style strings this development exercises: `YYYY-MM-DD`,
optionally followed by a space and `HH:MM` or `HH:MM:SS`.  Every other
string is modelled as coercing to `NaT` (`none`); blank cells coerce to
`NaT`.  The point the claims turn on is that this parser is strictly more
permissive than the fixed `"%Y-%m-%d %H:%M"` format of `parse_dt_str`
(for example it accepts a bare date) while still rejecting garbage such as
`"not-a-date"`. -/
def pd_to_datetime (s : String) : Option DT :=
  let t := stripChars s.data
  if t = [] then none
  else
    match splitOnChar ' ' t with
    | [d] => do
      let (y, mo, dd) ← parseIsoDate d
      checkDT y mo dd 0 0 0
    | [d, tm] => do
      let (y, mo, dd) ← parseIsoDate d
      let (h, mi, ss) ← parseClock tm
      checkDT y mo dd h mi ss
    | _ => none

/-! ## Tables -/

/-- A CSV table as pandas sees it: a header and string-cell rows. -/
structure RawTable where
  cols : List String
  rows : List (List String)
deriving DecidableEq, Repr

/-- The canonical log columns of `app.py`. -/
def COL_DT : String := "実施日時"

/-- Weight column name. -/
def COL_W : String := "体重(g)"

/-- Memo column name. -/
def COL_MEMO : String := "メモ"

/-- Photo-list column name. -/
def COL_PHOTOS : String := "写真ファイル"

/-- The canonical column set, in the order `load_log` iterates it. -/
def canonicalCols : List String := [COL_DT, COL_W, COL_MEMO, COL_PHOTOS]

/-- Position of a column label in the header (first match). -/
def lookupIdx (c : String) : List String → Option Nat
  | [] => none
  | x :: xs => if x = c then some 0 else (lookupIdx c xs).map (· + 1)

/-- `row[c]` for a labelled row; missing labels and short rows read as the
empty cell. -/
def getCell (cols : List String) (row : List String) (c : String) : String :=
  match lookupIdx c cols with
  | some i => row.getD i ""
  | none => ""

/-- `df.loc[row, c] = v` on one row; a missing label is a no-op (the app
only ever assigns to columns `load_log` guarantees to exist). -/
def setCell (cols : List String) (row : List String) (c v : String) : List String :=
  match lookupIdx c cols with
  | some i => row.set i v
  | none => row

/-- `df[c] = ""` when `c` is absent: pandas appends the column, giving every
existing row the empty value. -/
def addCol (t : RawTable) (c : String) : RawTable :=
  if t.cols.contains c then t
  else ⟨t.cols ++ [c], t.rows.map (fun r => r ++ [""])⟩

/-- The backward-compatibility loop of `load_log`
(`for c in [COL_DT, COL_W, COL_MEMO, COL_PHOTOS]: if c not in df.columns: df[c] = ""`). -/
def withCanonicalCols (t : RawTable) : RawTable := canonicalCols.foldl addCol t

/-- A row survives `df.dropna(subset=["_dt"])` iff its timestamp cell
coerces (`_dt = pd.to_datetime(df[COL_DT], errors="coerce")`). -/
def rowValid (cols : List String) (r : List String) : Bool :=
  (pd_to_datetime (getCell cols r COL_DT)).isSome

/-- `load_log` from `app.py` on the on-disk table: add any missing canonical
column as empty, then drop every row whose timestamp does not coerce.
(The internal `_dt` helper column is recomputed on demand rather than
materialised; `save_log` drops it before writing.) -/
def load_log (t : RawTable) : RawTable :=
  let t2 := withCanonicalCols t
  ⟨t2.cols, t2.rows.filter (rowValid t2.cols)⟩

/-- The weight cell written by `append_log_row`:
`"" if weight_g is None else float(weight_g)` as it lands in the CSV.
(Non-integral weights never occur in the claims; their decimal rendering is
irrelevant to every theorem below.) -/
def wcell (w : Option Rat) : String :=
  match w with
  | none => ""
  | some q => if q.den = 1 then toString q.num ++ ".0" else toString q

/-- The row `append_log_row` adds, aligned to the loaded header (columns the
new-row dict does not mention get the empty cell, as `pd.concat` fills
`NaN` there and `to_csv` writes it empty). -/
def newLogRow (cols : List String) (d : DT) (w : Option Rat) (memo : String)
    (photo_files : List String) : List String :=
  cols.map (fun c =>
    if c = COL_DT then to_dt_str d
    else if c = COL_W then wcell w
    else if c = COL_MEMO then memo
    else if c = COL_PHOTOS then join_photos photo_files
    else "")

/-- `append_log_row` from `app.py`: load (normalising), concatenate one new
row, save.  The result is the table `save_log` writes back to disk. -/
def append_log_row (file : RawTable) (d : DT) (w : Option Rat) (memo : String)
    (photo_files : List String) : RawTable :=
  let df := load_log file
  ⟨df.cols, df.rows ++ [newLogRow df.cols d w memo photo_files]⟩

/-- `delete_one_photo_from_row` from `app.py`, table part: load (normalising
and positionally reindexing), bounds-check, drop every list entry equal to
`filename` from the addressed row's photo cell, save.  Out of range returns
before saving, so the on-disk file is untouched. -/
def delete_one_photo_from_row (file : RawTable) (row_index : Int) (filename : String) :
    RawTable :=
  let df := load_log file
  if row_index < 0 ∨ (df.rows.length : Int) ≤ row_index then file
  else
    let i := row_index.toNat
    let r := df.rows.getD i []
    let photos := (split_photos (getCell df.cols r COL_PHOTOS)).filter (fun p => !(p == filename))
    ⟨df.cols, df.rows.set i (setCell df.cols r COL_PHOTOS (join_photos photos))⟩

/-- Outcome of the underlying `os.remove` call. -/
inductive OsErr where
  | enoent
  | eperm
deriving DecidableEq, Repr

/-- `safe_delete_file` from `app.py`: `try: if exists: remove; return True
except: return False`.  `fileExists` models `os.path.exists(path)` and
`removeResult` the outcome `os.remove(path)` would have. -/
def safe_delete_file (fileExists : Bool) (removeResult : Except OsErr Unit) : Bool :=
  match (if fileExists then removeResult else Except.ok ()) with
  | Except.ok _ => true
  | Except.error _ => false

/-- `delete_one_photo_from_row` with the best-effort asset deletion made
explicit: the table is saved first, then `safe_delete_file` runs and its
result is discarded.  The `Except` result type records whether anything
propagates to the caller. -/
def delete_one_photo_run (file : RawTable) (row_index : Int) (filename : String)
    (assetExists : Bool) (removeResult : Except OsErr Unit) : Except OsErr RawTable :=
  let df := load_log file
  if row_index < 0 ∨ (df.rows.length : Int) ≤ row_index then Except.ok file
  else
    let i := row_index.toNat
    let r := df.rows.getD i []
    let photos := (split_photos (getCell df.cols r COL_PHOTOS)).filter (fun p => !(p == filename))
    let saved : RawTable := ⟨df.cols, df.rows.set i (setCell df.cols r COL_PHOTOS (join_photos photos))⟩
    let _ := safe_delete_file assetExists removeResult
    Except.ok saved

/-! ## Master roster and the tab-2 handler -/

/-- Identifier column of the master roster. -/
def masterIdCol : String := "RabbitID"

/-- Next-appointment column of the master roster. -/
def masterNextCol : String := "次回予約日時"

/-- First row index whose cells satisfy a predicate
(`master_df.index[mask][0]`). -/
def firstIdxWhere (p : List String → Bool) : List (List String) → Option Nat
  | [] => none
  | r :: rs => if p r then some 0 else (firstIdxWhere p rs).map (· + 1)

/-- The tab-2 "record completed session" handler of `app.py`: the number
widget's value `weightInput` becomes `None` when it is exactly `0.0`
(`w = None if weight_g == 0.0 else float(weight_g)`), the memo is stripped,
the session row is appended, and the subject's next-appointment cell is
cleared unconditionally and saved.  `none` models the `IndexError` raised
when the selected id is not in the roster (unreachable through the UI). -/
def recordSession (master log : RawTable) (selId : String) (d : DT)
    (weightInput : Rat) (memo : String) (savedFiles : List String) :
    Option (RawTable × RawTable) :=
  match firstIdxWhere (fun r => getCell master.cols r masterIdCol == selId) master.rows with
  | none => none
  | some i =>
    let w : Option Rat := if weightInput = 0 then none else some weightInput
    let log2 := append_log_row log d w (pyStrip memo) savedFiles
    let master2 : RawTable :=
      ⟨master.cols,
       master.rows.set i (setCell master.cols (master.rows.getD i []) masterNextCol "")⟩
    some (master2, log2)

/-- Rows of a well-formed CSV table are exactly as wide as the header. -/
def WF (t : RawTable) : Prop := ∀ r ∈ t.rows, r.length = t.cols.length

instance (t : RawTable) : Decidable (WF t) := by
  unfold WF; infer_instance

/-- The list-shape guard of the `"nan"` pitfall: a one-element reference
list whose sole entry lowercases to `"nan"` is (mis)read back as empty. -/
def notNanB (files : List String) : Bool :=
  match files with
  | [f] => !(pyLower f == "nan")
  | _ => true

/-- A reference list the codec can round-trip: entries are non-empty,
already stripped, contain no `"|"` delimiter, and the list is not the
single entry `"nan"` (in any case). -/
def goodRefsB (files : List String) : Bool :=
  files.all (fun f => decide (f ≠ "" ∧ stripChars f.data = f.data ∧ '|' ∉ f.data)) &&
    notNanB files

/-- Propositional form of `goodRefsB`. -/
def GoodRefs (files : List String) : Prop := goodRefsB files = true

instance (files : List String) : Decidable (GoodRefs files) := by
  unfold GoodRefs; infer_instance

/-! ## Sample data used by witnesses and counterexamples -/

/-- A sample valid session time, `2024-06-01 09:30`. -/
def sampleDT : DT := ⟨2024, 6, 1, 9, 30, 0⟩

/-- An empty canonical log file, as `init_log` creates it. -/
def emptyLog : RawTable := ⟨canonicalCols, []⟩

/-- A log file using a legacy English weight column name and no photo
column, with one row. -/
def c1LegacyFile : RawTable :=
  ⟨[COL_DT, "weight_g"], [["2024-06-01 09:30", "1500"]]⟩

/-- A log whose single row lists the same photo reference twice. -/
def c2DupFile : RawTable :=
  ⟨canonicalCols, [["2024-06-01 09:30", "", "", "a.jpg|a.jpg"]]⟩

/-- A two-subject master roster, `R01` with a pending appointment. -/
def c3Master : RawTable :=
  ⟨[masterIdCol, "名前", masterNextCol],
   [["R01", "kurumi", "2024-07-01 10:00"], ["R02", "みらい", ""]]⟩

/-- A log with one date-only timestamp (fails the fixed format, parses
flexibly). -/
def c4DateOnlyFile : RawTable := ⟨canonicalCols, [["2024-06-01", "", "", ""]]⟩

/-- A log with one garbage timestamp. -/
def c4NotADateFile : RawTable := ⟨canonicalCols, [["not-a-date", "", "", ""]]⟩

/-- A log with one blank timestamp. -/
def c4BlankFile : RawTable := ⟨canonicalCols, [["", "", "", ""]]⟩

/-- A one-subject master roster with a pending appointment. -/
def c7Master : RawTable :=
  ⟨[masterIdCol, "名前", masterNextCol], [["R01", "kurumi", "2024-07-01 10:00"]]⟩

/-- A log holding one corrupt row and one valid row with a photo. -/
def c8BadFile : RawTable :=
  ⟨canonicalCols, [["nope", "", "", ""], ["2024-06-01 09:30", "", "", "a.jpg"]]⟩

/-- A log holding only a corrupt row that still references a photo. -/
def c10BadFile : RawTable := ⟨canonicalCols, [["notadate", "", "", "x.jpg"]]⟩

/-! ## Lemmas about the character-level splitting, joining and stripping -/

theorem splitOnChar_ne_nil (sep : Char) (l : List Char) : splitOnChar sep l ≠ [] := by
  induction l with
  | nil => simp [splitOnChar]
  | cons c cs ih =>
    unfold splitOnChar
    cases h : splitOnChar sep cs with
    | nil => simp
    | cons p ps => dsimp; split <;> simp

theorem splitOnChar_exists_cons (sep : Char) (l : List Char) :
    ∃ p ps, splitOnChar sep l = p :: ps := by
  cases h : splitOnChar sep l with
  | nil => exact absurd h (splitOnChar_ne_nil sep l)
  | cons p ps => exact ⟨p, ps, rfl⟩

theorem splitOnChar_cons_eq (sep c : Char) (cs : List Char) {p : List Char}
    {ps : List (List Char)} (h : splitOnChar sep cs = p :: ps) :
    splitOnChar sep (c :: cs) = if c = sep then [] :: p :: ps else (c :: p) :: ps := by
  simp only [splitOnChar, h]

theorem mem_splitOnChar_not_sep (sep : Char) (l : List Char) :
    ∀ p ∈ splitOnChar sep l, sep ∉ p := by
  induction l with
  | nil => intro p hp; simp [splitOnChar] at hp; simp [hp]
  | cons c cs ih =>
    intro p hp
    obtain ⟨q, qs, h⟩ := splitOnChar_exists_cons sep cs
    rw [splitOnChar_cons_eq sep c cs h] at hp
    by_cases hc : c = sep
    · rw [if_pos hc] at hp
      rcases List.mem_cons.mp hp with hp | hp
      · simp [hp]
      · exact ih p (h ▸ hp)
    · rw [if_neg hc] at hp
      rcases List.mem_cons.mp hp with hp | hp
      · subst hp
        intro hmem
        rcases List.mem_cons.mp hmem with h1 | h1
        · exact hc h1.symm
        · exact ih q (h ▸ List.mem_cons_self q qs) h1
      · exact ih p (h ▸ List.mem_cons_of_mem q hp)

theorem splitOnChar_of_not_mem {sep : Char} {l : List Char} (h : sep ∉ l) :
    splitOnChar sep l = [l] := by
  induction l with
  | nil => rfl
  | cons c cs ih =>
    have hc : c ≠ sep := fun he => h (he ▸ List.mem_cons_self c cs)
    have hcs : sep ∉ cs := fun hm => h (List.mem_cons_of_mem c hm)
    unfold splitOnChar
    rw [ih hcs]
    simp [hc]

theorem splitOnChar_append_cons {sep : Char} {xs : List Char} (ys : List Char)
    (h : sep ∉ xs) : splitOnChar sep (xs ++ sep :: ys) = xs :: splitOnChar sep ys := by
  induction xs with
  | nil =>
    obtain ⟨q, qs, hy⟩ := splitOnChar_exists_cons sep ys
    simp only [List.nil_append]
    rw [splitOnChar_cons_eq sep sep ys hy, if_pos rfl, hy]
  | cons c cs ih =>
    have hc : c ≠ sep := fun he => h (he ▸ List.mem_cons_self c cs)
    have hcs : sep ∉ cs := fun hm => h (List.mem_cons_of_mem c hm)
    simp only [List.cons_append]
    rw [splitOnChar_cons_eq sep c (cs ++ sep :: ys) (ih hcs), if_neg hc]

theorem joinChars_ne_nil {sep : Char} {L : List (List Char)} (hL : L ≠ [])
    (hhead : L.headD [] ≠ []) : joinChars sep L ≠ [] := by
  match L with
  | [] => exact absurd rfl hL
  | [x] => simpa [joinChars] using hhead
  | x :: y :: ys =>
    simp only [joinChars]
    exact List.append_ne_nil_of_left_ne_nil (by simpa using hhead) _

theorem splitOnChar_joinChars {sep : Char} {L : List (List Char)}
    (h : ∀ x ∈ L, sep ∉ x) (hne : L ≠ []) :
    splitOnChar sep (joinChars sep L) = L := by
  induction L with
  | nil => exact absurd rfl hne
  | cons x xs ih =>
    match xs with
    | [] =>
      simp only [joinChars]
      exact splitOnChar_of_not_mem (h x (List.mem_cons_self x []))
    | y :: ys =>
      simp only [joinChars]
      rw [splitOnChar_append_cons _ (h x (List.mem_cons_self x _))]
      rw [ih (fun z hz => h z (List.mem_cons_of_mem x hz)) (by simp)]

theorem head?_trimLeft (l : List Char) :
    ∀ c ∈ (trimLeftChars l).head?, isPySpace c = false := by
  induction l with
  | nil => simp [trimLeftChars]
  | cons c cs ih =>
    intro d hd
    rw [trimLeftChars, List.dropWhile_cons] at hd
    by_cases hc : isPySpace c
    · rw [if_pos hc] at hd
      exact ih d hd
    · rw [if_neg hc] at hd
      simp only [List.head?_cons, Option.mem_def, Option.some.injEq] at hd
      subst hd
      simpa using hc

theorem trimLeft_eq_self {l : List Char} (h : ∀ c ∈ l.head?, isPySpace c = false) :
    trimLeftChars l = l := by
  cases l with
  | nil => rfl
  | cons c cs =>
    have hc : isPySpace c = false := h c (by simp)
    rw [trimLeftChars, List.dropWhile_cons, hc]
    simp

theorem trimRight_eq_self {l : List Char} (h : ∀ c ∈ l.getLast?, isPySpace c = false) :
    trimRightChars l = l := by
  have h2 : ∀ c ∈ l.reverse.head?, isPySpace c = false := by
    intro c hc
    exact h c (by rwa [List.head?_reverse] at hc)
  have h3 : trimLeftChars l.reverse = l.reverse := trimLeft_eq_self h2
  rw [trimRightChars, show l.reverse.dropWhile isPySpace = trimLeftChars l.reverse from rfl,
    h3, List.reverse_reverse]

theorem stripChars_eq_self {l : List Char}
    (h1 : ∀ c ∈ l.head?, isPySpace c = false)
    (h2 : ∀ c ∈ l.getLast?, isPySpace c = false) : stripChars l = l := by
  rw [stripChars, trimLeft_eq_self h1, trimRight_eq_self h2]

theorem getLast?_trimRight (l : List Char) :
    ∀ c ∈ (trimRightChars l).getLast?, isPySpace c = false := by
  intro c hc
  rw [trimRightChars, List.getLast?_reverse] at hc
  exact head?_trimLeft l.reverse c hc

theorem head?_trimRight (l : List Char) :
    trimRightChars l = [] ∨ (trimRightChars l).head? = l.head? := by
  cases l with
  | nil => left; rfl
  | cons c cs =>
    rw [trimRightChars, List.reverse_cons, List.dropWhile_append]
    by_cases he : (cs.reverse.dropWhile isPySpace).isEmpty
    · rw [if_pos he]
      by_cases hc : isPySpace c
      · left; simp [List.dropWhile_cons, hc]
      · right; simp [List.dropWhile_cons, hc]
    · rw [if_neg (by simpa using he)]
      right
      rw [List.reverse_append]
      simp

theorem head?_stripChars (l : List Char) :
    ∀ c ∈ (stripChars l).head?, isPySpace c = false := by
  intro c hc
  rw [stripChars] at hc
  rcases head?_trimRight (trimLeftChars l) with h | h
  · rw [h] at hc; simp at hc
  · rw [h] at hc
    exact head?_trimLeft l c hc

theorem getLast?_stripChars (l : List Char) :
    ∀ c ∈ (stripChars l).getLast?, isPySpace c = false :=
  getLast?_trimRight (trimLeftChars l)

theorem stripChars_idem (l : List Char) : stripChars (stripChars l) = stripChars l :=
  stripChars_eq_self (head?_stripChars l) (getLast?_stripChars l)

theorem mem_stripChars {c : Char} {l : List Char} (h : c ∈ stripChars l) : c ∈ l := by
  rw [stripChars, trimRightChars, List.mem_reverse] at h
  have hsub1 : ((trimLeftChars l).reverse.dropWhile isPySpace).Sublist (trimLeftChars l).reverse :=
    List.dropWhile_sublist isPySpace
  have h2 := hsub1.mem h
  rw [List.mem_reverse] at h2
  have hsub2 : (l.dropWhile isPySpace).Sublist l := List.dropWhile_sublist isPySpace
  exact hsub2.mem h2

/-! ## The photo-cell codec round trip -/

theorem string_data_nil {s : String} : s.data = [] ↔ s = "" :=
  ⟨fun h => String.ext h, fun h => by subst h; rfl⟩

theorem goodRefs_iff {files : List String} :
    GoodRefs files ↔
      (∀ f ∈ files, f ≠ "" ∧ stripChars f.data = f.data ∧ '|' ∉ f.data) ∧
        notNanB files = true := by
  simp [GoodRefs, goodRefsB, List.all_eq_true]

theorem pyStrip_eq_self {f : String} (h : stripChars f.data = f.data) : pyStrip f = f := by
  unfold pyStrip
  rw [h]

theorem join_photos_eq {files : List String}
    (h : ∀ f ∈ files, f ≠ "" ∧ stripChars f.data = f.data) :
    join_photos files = String.mk (joinChars '|' (files.map String.data)) := by
  unfold join_photos
  have hfilter : files.filter (fun f => !(f == "") && !(pyStrip f == "")) = files := by
    rw [List.filter_eq_self]
    intro f hf
    obtain ⟨h1, h2⟩ := h f hf
    rw [pyStrip_eq_self h2]
    simp [h1]
  rw [hfilter]
  have hmap : files.map pyStrip = files := by
    conv_rhs => rw [← List.map_id files]
    exact List.map_congr_left (fun f hf => pyStrip_eq_self (h f hf).2)
  rw [hmap]

theorem join_head_nonspace (sep : Char) (L : List (List Char))
    (h : ∀ x ∈ L, x ≠ [] ∧ ∀ c ∈ x.head?, isPySpace c = false) :
    ∀ c ∈ (joinChars sep L).head?, isPySpace c = false := by
  cases L with
  | nil => intro c hc; simp [joinChars] at hc
  | cons x xs =>
    cases xs with
    | nil =>
      intro c hc
      exact (h x (List.mem_cons_self x [])).2 c hc
    | cons y ys =>
      intro c hc
      obtain ⟨hxne, hxhead⟩ := h x (List.mem_cons_self x _)
      rw [show joinChars sep (x :: y :: ys) = x ++ sep :: joinChars sep (y :: ys) from rfl,
        List.head?_append] at hc
      cases x with
      | nil => exact absurd rfl hxne
      | cons a t =>
        simp only [List.head?_cons, Option.or, Option.mem_def, Option.some.injEq] at hc
        exact hc ▸ hxhead a (by simp)

theorem join_getLast_nonspace (sep : Char) (L : List (List Char))
    (h : ∀ x ∈ L, x ≠ [] ∧ ∀ c ∈ x.getLast?, isPySpace c = false) :
    ∀ c ∈ (joinChars sep L).getLast?, isPySpace c = false := by
  induction L with
  | nil => simp [joinChars]
  | cons x xs ih =>
    match xs with
    | [] => exact (h x (List.mem_cons_self x [])).2
    | y :: ys =>
      intro c hc
      have hj : joinChars sep (y :: ys) ≠ [] :=
        joinChars_ne_nil (by simp) (by simpa using (h y (by simp)).1)
      rw [show joinChars sep (x :: y :: ys) = x ++ sep :: joinChars sep (y :: ys) from rfl,
        List.getLast?_append] at hc
      obtain ⟨j0, js, hjs⟩ : ∃ j0 js, joinChars sep (y :: ys) = j0 :: js := by
        cases hjj : joinChars sep (y :: ys) with
        | nil => exact absurd hjj hj
        | cons j0 js => exact ⟨j0, js, rfl⟩
      rw [hjs] at hc
      have hlast : (sep :: j0 :: js).getLast? = (j0 :: js).getLast? := by
        simp [List.getLast?_cons_cons]
      rw [hlast] at hc
      have hsome : ((j0 :: js).getLast?).isSome := by
        simp [List.getLast?_cons]
      obtain ⟨v, hv⟩ := Option.isSome_iff_exists.mp hsome
      rw [hv] at hc
      simp only [Option.or, Option.mem_def, Option.some.injEq] at hc
      have h3 := ih (fun z hz => h z (List.mem_cons_of_mem x hz)) v
      rw [hjs] at h3
      exact hc ▸ h3 hv

theorem join_two_has_pipe (sep : Char) (x y : List Char) (ys : List (List Char)) :
    sep ∈ joinChars sep (x :: y :: ys) := by
  rw [show joinChars sep (x :: y :: ys) = x ++ sep :: joinChars sep (y :: ys) from rfl]
  simp

theorem lowerChars_ne_nan_of_pipe {l : List Char} (h : '|' ∈ l) :
    lowerChars l ≠ "nan".data := by
  intro he
  have h2 : '|' ∈ lowerChars l := by
    rw [lowerChars]
    exact List.mem_map.mpr ⟨'|', h, by decide⟩
  rw [he] at h2
  exact absurd h2 (by decide)

theorem split_join_photos {files : List String} (h : GoodRefs files) :
    split_photos (join_photos files) = files := by
  rw [goodRefs_iff] at h
  obtain ⟨hball, hnan⟩ := h
  match files with
  | [] => decide
  | f0 :: rest =>
    have hjoin : join_photos (f0 :: rest) =
        String.mk (joinChars '|' ((f0 :: rest).map String.data)) :=
      join_photos_eq (fun f hf => ⟨(hball f hf).1, (hball f hf).2.1⟩)
    rw [hjoin]
    have hparts : ∀ x ∈ (f0 :: rest).map String.data,
        x ≠ [] ∧ stripChars x = x ∧ '|' ∉ x := by
      intro x hx
      rcases List.mem_map.mp hx with ⟨f, hf, rfl⟩
      obtain ⟨h1, h2, h3⟩ := hball f hf
      exact ⟨fun he => h1 (string_data_nil.mp he), h2, h3⟩
    have hLne : (f0 :: rest).map String.data ≠ [] := by simp
    have hstrip : stripChars (joinChars '|' ((f0 :: rest).map String.data)) =
        joinChars '|' ((f0 :: rest).map String.data) := by
      apply stripChars_eq_self
      · apply join_head_nonspace
        intro x hx
        obtain ⟨h1, h2, _⟩ := hparts x hx
        refine ⟨h1, ?_⟩
        rw [← h2]
        exact head?_stripChars x
      · apply join_getLast_nonspace
        intro x hx
        obtain ⟨h1, h2, _⟩ := hparts x hx
        refine ⟨h1, ?_⟩
        rw [← h2]
        exact getLast?_stripChars x
    have hjne : joinChars '|' ((f0 :: rest).map String.data) ≠ [] := by
      apply joinChars_ne_nil hLne
      have := (hparts f0.data (by simp)).1
      simpa using this
    have hnotnan : lowerChars (joinChars '|' ((f0 :: rest).map String.data)) ≠ ['n', 'a', 'n'] := by
      match rest with
      | [] =>
        simp only [List.map_cons, List.map_nil]
        rw [show joinChars '|' [f0.data] = f0.data from rfl]
        intro he
        have h2 : pyLower f0 = "nan" := String.ext he
        simp [notNanB, h2] at hnan
      | r :: rs =>
        exact lowerChars_ne_nan_of_pipe (join_two_has_pipe '|' f0.data r.data (rs.map String.data))
    simp only [split_photos]
    rw [hstrip, if_neg hjne, if_neg hnotnan]
    rw [splitOnChar_joinChars (fun x hx => (hparts x hx).2.2) hLne]
    have hmapstrip : ((f0 :: rest).map String.data).map stripChars = (f0 :: rest).map String.data := by
      conv_rhs => rw [← List.map_id ((f0 :: rest).map String.data)]
      exact List.map_congr_left (fun x hx => (hparts x hx).2.1)
    rw [hmapstrip]
    have hfilter : ((f0 :: rest).map String.data).filter (fun p => p ≠ []) =
        (f0 :: rest).map String.data := by
      rw [List.filter_eq_self]
      intro x hx
      simp [(hparts x hx).1]
    rw [hfilter, List.map_map]
    have hid : ∀ f ∈ (f0 :: rest), (String.mk ∘ String.data) f = id f := fun f _ => String.ext rfl
    rw [List.map_congr_left hid, List.map_id]

theorem split_photos_parts (cell : String) :
    ∀ f ∈ split_photos cell, f ≠ "" ∧ stripChars f.data = f.data ∧ '|' ∉ f.data := by
  intro f hf
  simp only [split_photos] at hf
  by_cases h1 : stripChars cell.data = []
  · rw [if_pos h1] at hf; simp at hf
  · rw [if_neg h1] at hf
    by_cases h2 : lowerChars (stripChars cell.data) = "nan".data
    · rw [if_pos h2] at hf; simp at hf
    · rw [if_neg h2] at hf
      rcases List.mem_map.mp hf with ⟨p, hp, rfl⟩
      have hpne : p ≠ [] := by
        have := (List.mem_filter.mp hp).2
        simpa using this
      have hp2 := List.mem_of_mem_filter hp
      rcases List.mem_map.mp hp2 with ⟨q, hq, rfl⟩
      refine ⟨?_, ?_, ?_⟩
      · intro he
        exact hpne (string_data_nil.mpr he)
      · rw [show (String.mk (stripChars q)).data = stripChars q from rfl]
        exact stripChars_idem q
      · rw [show (String.mk (stripChars q)).data = stripChars q from rfl]
        intro hmem
        exact mem_splitOnChar_not_sep '|' (stripChars cell.data) q hq (mem_stripChars hmem)

/-! ## The rendered timestamp reparses -/

theorem digitChar_lt_ten (k : Nat) (h : k < 10) :
    (Nat.digitChar k).isDigit = true ∧ isPySpace (Nat.digitChar k) = false ∧
    Nat.digitChar k ≠ '-' ∧ Nat.digitChar k ≠ ':' ∧ Nat.digitChar k ≠ ' ' ∧
    (Nat.digitChar k).toNat = 48 + k := by
  interval_cases k <;> decide

theorem pad2Chars_eq {n : Nat} (h : n < 100) :
    pad2Chars n = [Nat.digitChar (n / 10), Nat.digitChar (n % 10)] := by
  rw [pad2Chars, if_pos h]

theorem pad4Chars_eq {n : Nat} (h : n < 10000) :
    pad4Chars n = [Nat.digitChar (n / 1000), Nat.digitChar (n / 100 % 10),
      Nat.digitChar (n / 10 % 10), Nat.digitChar (n % 10)] := by
  rw [pad4Chars, if_pos h]

theorem mem_pad2_isDigit {n : Nat} (h : n < 100) : ∀ c ∈ pad2Chars n, c.isDigit = true := by
  rw [pad2Chars_eq h]
  intro c hc
  rcases List.mem_cons.mp hc with rfl | hc
  · exact (digitChar_lt_ten _ (by omega)).1
  · rcases List.mem_cons.mp hc with rfl | hc
    · exact (digitChar_lt_ten _ (by omega)).1
    · simp at hc

theorem mem_pad4_isDigit {n : Nat} (h : n < 10000) : ∀ c ∈ pad4Chars n, c.isDigit = true := by
  rw [pad4Chars_eq h]
  intro c hc
  rcases List.mem_cons.mp hc with rfl | hc
  · exact (digitChar_lt_ten _ (by omega)).1
  · rcases List.mem_cons.mp hc with rfl | hc
    · exact (digitChar_lt_ten _ (by omega)).1
    · rcases List.mem_cons.mp hc with rfl | hc
      · exact (digitChar_lt_ten _ (by omega)).1
      · rcases List.mem_cons.mp hc with rfl | hc
        · exact (digitChar_lt_ten _ (by omega)).1
        · simp at hc

theorem not_mem_pad2 {n : Nat} (h : n < 100) (c : Char) (hc : c.isDigit = false) :
    c ∉ pad2Chars n := fun hm => by rw [mem_pad2_isDigit h c hm] at hc; exact absurd hc (by decide)

theorem not_mem_pad4 {n : Nat} (h : n < 10000) (c : Char) (hc : c.isDigit = false) :
    c ∉ pad4Chars n := fun hm => by rw [mem_pad4_isDigit h c hm] at hc; exact absurd hc (by decide)

theorem parseDigits_pad2 {n : Nat} (h : n < 100) : parseDigits (pad2Chars n) 2 = some n := by
  rw [pad2Chars_eq h]
  have h1 : n / 10 < 10 := by omega
  have h2 : n % 10 < 10 := by omega
  rw [parseDigits]
  rw [if_neg (by simp), if_neg (by simp)]
  rw [if_pos (by
    simp [List.all_eq_true]
    exact ⟨(digitChar_lt_ten _ h1).1, (digitChar_lt_ten _ h2).1⟩)]
  congr 1
  simp only [digitsVal, List.foldl]
  rw [(digitChar_lt_ten _ h1).2.2.2.2.2, (digitChar_lt_ten _ h2).2.2.2.2.2]
  omega

theorem parseDigits_pad4 {n : Nat} (h : n < 10000) : parseDigits (pad4Chars n) 4 = some n := by
  rw [pad4Chars_eq h]
  have h1 : n / 1000 < 10 := by omega
  have h2 : n / 100 % 10 < 10 := by omega
  have h3 : n / 10 % 10 < 10 := by omega
  have h4 : n % 10 < 10 := by omega
  rw [parseDigits]
  rw [if_neg (by simp), if_neg (by simp)]
  rw [if_pos (by
    simp [List.all_eq_true]
    exact ⟨(digitChar_lt_ten _ h1).1, (digitChar_lt_ten _ h2).1,
      (digitChar_lt_ten _ h3).1, (digitChar_lt_ten _ h4).1⟩)]
  congr 1
  simp only [digitsVal, List.foldl]
  rw [(digitChar_lt_ten _ h1).2.2.2.2.2, (digitChar_lt_ten _ h2).2.2.2.2.2,
    (digitChar_lt_ten _ h3).2.2.2.2.2, (digitChar_lt_ten _ h4).2.2.2.2.2]
  omega

theorem dtChars_decomp (d : DT) :
    dtChars d =
      (pad4Chars d.year ++ ('-' :: (pad2Chars d.month ++ ('-' :: pad2Chars d.day)))) ++
        (' ' :: (pad2Chars d.hour ++ (':' :: pad2Chars d.minute))) := by
  simp [dtChars, List.append_assoc, List.cons_append]

theorem daysInMonth_le (y m : Nat) : daysInMonth y m ≤ 31 := by
  unfold daysInMonth
  by_cases h2 : m = 2
  · rw [if_pos h2]
    by_cases hl : isLeapYear y <;> simp [hl]
  · rw [if_neg h2]
    split <;> omega

theorem pd_to_datetime_to_dt_str (d : DT) (h : validDT d) :
    pd_to_datetime (to_dt_str d) = some ⟨d.year, d.month, d.day, d.hour, d.minute, 0⟩ := by
  obtain ⟨hy1, hy2, hm1, hm2, hd1, hd2, hh, hmi, _⟩ := h
  have hy : d.year < 10000 := by omega
  have hmo : d.month < 100 := by omega
  have hdd : d.day < 100 := by have := daysInMonth_le d.year d.month; omega
  have hhh : d.hour < 100 := by omega
  have hmm2 : d.minute < 100 := by omega
  have hdate_ne_sp :
      ' ' ∉ pad4Chars d.year ++ ('-' :: (pad2Chars d.month ++ ('-' :: pad2Chars d.day))) := by
    intro hm
    rcases List.mem_append.mp hm with hm | hm
    · exact not_mem_pad4 hy ' ' (by decide) hm
    · rcases List.mem_cons.mp hm with hm | hm
      · exact absurd hm (by decide)
      · rcases List.mem_append.mp hm with hm | hm
        · exact not_mem_pad2 hmo ' ' (by decide) hm
        · rcases List.mem_cons.mp hm with hm | hm
          · exact absurd hm (by decide)
          · exact not_mem_pad2 hdd ' ' (by decide) hm
  have htime_ne_sp : ' ' ∉ pad2Chars d.hour ++ (':' :: pad2Chars d.minute) := by
    intro hm
    rcases List.mem_append.mp hm with hm | hm
    · exact not_mem_pad2 hhh ' ' (by decide) hm
    · rcases List.mem_cons.mp hm with hm | hm
      · exact absurd hm (by decide)
      · exact not_mem_pad2 hmm2 ' ' (by decide) hm
  have hhead : ∀ c ∈ (dtChars d).head?, isPySpace c = false := by
    rw [dtChars_decomp, pad4Chars_eq hy]
    intro c hc
    simp only [List.cons_append, List.head?_cons, Option.mem_def, Option.some.injEq] at hc
    exact hc ▸ (digitChar_lt_ten _ (by omega)).2.1
  have hlast : ∀ c ∈ (dtChars d).getLast?, isPySpace c = false := by
    rw [dtChars_decomp, pad4Chars_eq hy, pad2Chars_eq hmo, pad2Chars_eq hdd,
      pad2Chars_eq hhh, pad2Chars_eq hmm2]
    intro c hc
    simp only [List.cons_append, List.nil_append, List.append_assoc] at hc
    simp only [List.getLast?_cons_cons, List.getLast?_singleton,
      Option.mem_def, Option.some.injEq] at hc
    exact hc ▸ (digitChar_lt_ten _ (by omega)).2.1
  have hstrip : stripChars (dtChars d) = dtChars d := stripChars_eq_self hhead hlast
  have hne : dtChars d ≠ [] := by
    rw [dtChars_decomp, pad4Chars_eq hy]
    simp
  have hsplit : splitOnChar ' ' (dtChars d) =
      [pad4Chars d.year ++ ('-' :: (pad2Chars d.month ++ ('-' :: pad2Chars d.day))),
       pad2Chars d.hour ++ (':' :: pad2Chars d.minute)] := by
    rw [dtChars_decomp, splitOnChar_append_cons _ hdate_ne_sp,
      splitOnChar_of_not_mem htime_ne_sp]
  have hdate : parseIsoDate
      (pad4Chars d.year ++ ('-' :: (pad2Chars d.month ++ ('-' :: pad2Chars d.day)))) =
      some (d.year, d.month, d.day) := by
    unfold parseIsoDate
    rw [splitOnChar_append_cons _ (not_mem_pad4 hy '-' (by decide)),
      splitOnChar_append_cons _ (not_mem_pad2 hmo '-' (by decide)),
      splitOnChar_of_not_mem (not_mem_pad2 hdd '-' (by decide))]
    dsimp only
    rw [if_pos (by rw [pad4Chars_eq hy]; rfl)]
    rw [parseDigits_pad4 hy, parseDigits_pad2 hmo, parseDigits_pad2 hdd]
  have hclock : parseClock (pad2Chars d.hour ++ (':' :: pad2Chars d.minute)) =
      some (d.hour, d.minute, 0) := by
    unfold parseClock
    rw [splitOnChar_append_cons _ (not_mem_pad2 hhh ':' (by decide)),
      splitOnChar_of_not_mem (not_mem_pad2 hmm2 ':' (by decide))]
    dsimp only
    rw [parseDigits_pad2 hhh, parseDigits_pad2 hmm2]
  have hstrip2 : stripChars (to_dt_str d).data = dtChars d := hstrip
  simp only [pd_to_datetime, hstrip2, hsplit]
  rw [if_neg hne]
  rw [hdate, hclock]
  simp only [Option.bind_eq_bind, Option.some_bind]
  rw [checkDT, if_pos ⟨hy1, hy2, hm1, hm2, hd1, hd2, hh, hmi, by omega⟩]

theorem pd_to_datetime_to_dt_str_isSome (d : DT) (h : validDT d) :
    (pd_to_datetime (to_dt_str d)).isSome = true := by
  rw [pd_to_datetime_to_dt_str d h]
  rfl

/-! ## Table lemmas -/

theorem lookupIdx_eq_some {c : String} : ∀ {cols : List String} {i : Nat},
    lookupIdx c cols = some i → cols[i]? = some c := by
  intro cols
  induction cols with
  | nil => intro i h; simp [lookupIdx] at h
  | cons x xs ih =>
    intro i h
    rw [lookupIdx] at h
    by_cases hx : x = c
    · rw [if_pos hx] at h
      cases h
      simp [hx]
    · rw [if_neg hx] at h
      cases hj : lookupIdx c xs with
      | none => rw [hj] at h; simp at h
      | some j =>
        rw [hj] at h
        have h2 : j + 1 = i := Option.some.inj h
        subst h2
        simpa using ih hj

theorem lookupIdx_isSome_of_mem {c : String} : ∀ {cols : List String},
    c ∈ cols → ∃ i, lookupIdx c cols = some i := by
  intro cols
  induction cols with
  | nil => intro h; simp at h
  | cons x xs ih =>
    intro h
    rw [lookupIdx]
    by_cases hx : x = c
    · exact ⟨0, by rw [if_pos hx]⟩
    · have hc : c ∈ xs := by
        rcases List.mem_cons.mp h with h | h
        · exact absurd h.symm hx
        · exact h
      obtain ⟨j, hj⟩ := ih hc
      exact ⟨j + 1, by rw [if_neg hx, hj]; rfl⟩

theorem lookupIdx_append_left {c : String} : ∀ {cols : List String} {i : Nat},
    lookupIdx c cols = some i → ∀ more, lookupIdx c (cols ++ more) = some i := by
  intro cols
  induction cols with
  | nil => intro i h; simp [lookupIdx] at h
  | cons x xs ih =>
    intro i h more
    rw [lookupIdx] at h
    rw [List.cons_append, lookupIdx]
    by_cases hx : x = c
    · rw [if_pos hx] at h ⊢; exact h
    · rw [if_neg hx] at h ⊢
      cases hj : lookupIdx c xs with
      | none => rw [hj] at h; simp at h
      | some j =>
        rw [hj] at h
        rw [ih hj more]
        exact h

theorem lookupIdx_append_self {c : String} : ∀ {cols : List String},
    c ∉ cols → lookupIdx c (cols ++ [c]) = some cols.length := by
  intro cols
  induction cols with
  | nil => intro _; simp [lookupIdx]
  | cons x xs ih =>
    intro h
    have hx : x ≠ c := fun he => h (he ▸ List.mem_cons_self x xs)
    have hxs : c ∉ xs := fun hm => h (List.mem_cons_of_mem x hm)
    rw [List.cons_append, lookupIdx, if_neg hx, ih hxs]
    rfl

theorem lookupIdx_lt_length {c : String} {cols : List String} {i : Nat}
    (h : lookupIdx c cols = some i) : i < cols.length :=
  (List.getElem?_eq_some.mp (lookupIdx_eq_some h)).1

theorem getCell_map {cols : List String} {f : String → String} {c : String} (h : c ∈ cols) :
    getCell cols (cols.map f) c = f c := by
  obtain ⟨i, hi⟩ := lookupIdx_isSome_of_mem h
  have h2 := lookupIdx_eq_some hi
  rw [getCell, hi]
  dsimp only
  rw [List.getD_eq_getElem?_getD, List.getElem?_map, h2]
  rfl

theorem getCell_setCell_same {cols row : List String} {c v : String}
    (hmem : c ∈ cols) (hlen : cols.length ≤ row.length) :
    getCell cols (setCell cols row c v) c = v := by
  obtain ⟨i, hi⟩ := lookupIdx_isSome_of_mem hmem
  have hlt : i < cols.length := lookupIdx_lt_length hi
  rw [getCell, setCell, hi]
  dsimp only
  rw [List.getD_eq_getElem?_getD, List.getElem?_set_eq (by omega)]
  rfl

theorem getCell_setCell_ne {cols row : List String} {c v c' : String} (hne : c' ≠ c) :
    getCell cols (setCell cols row c v) c' = getCell cols row c' := by
  unfold getCell setCell
  cases h1 : lookupIdx c cols with
  | none => rfl
  | some i =>
    cases h2 : lookupIdx c' cols with
    | none => rfl
    | some j =>
      have hij : i ≠ j := by
        intro he
        subst he
        have e1 := lookupIdx_eq_some h1
        have e2 := lookupIdx_eq_some h2
        rw [e1] at e2
        exact hne (Option.some.inj e2).symm
      dsimp only
      rw [List.getD_eq_getElem?_getD, List.getD_eq_getElem?_getD,
        List.getElem?_set_ne hij]

theorem addCol_cols_mono {t : RawTable} {c c' : String} (h : c' ∈ t.cols) :
    c' ∈ (addCol t c).cols := by
  unfold addCol
  split
  · exact h
  · simp [h]

theorem addCol_cols_self (t : RawTable) (c : String) : c ∈ (addCol t c).cols := by
  unfold addCol
  split
  · rename_i h
    simpa [List.contains_iff_exists_mem_beq] using h
  · simp

theorem addCol_of_mem {t : RawTable} {c : String} (h : c ∈ t.cols) : addCol t c = t := by
  unfold addCol
  rw [if_pos (List.contains_iff_exists_mem_beq.mpr ⟨c, h, by simp⟩)]

theorem mem_foldl_addCol {L : List String} : ∀ {t : RawTable} {c : String},
    c ∈ L ∨ c ∈ t.cols → c ∈ (L.foldl addCol t).cols := by
  induction L with
  | nil =>
    intro t c h
    rcases h with h | h
    · simp at h
    · simpa using h
  | cons x xs ih =>
    intro t c h
    rw [List.foldl_cons]
    rcases h with h | h
    · rcases List.mem_cons.mp h with rfl | h
      · exact ih (Or.inr (addCol_cols_self t c))
      · exact ih (Or.inl h)
    · exact ih (Or.inr (addCol_cols_mono h))

theorem foldl_addCol_of_mem {L : List String} : ∀ {t : RawTable},
    (∀ c ∈ L, c ∈ t.cols) → L.foldl addCol t = t := by
  induction L with
  | nil => intro t _; rfl
  | cons x xs ih =>
    intro t h
    rw [List.foldl_cons, addCol_of_mem (h x (List.mem_cons_self x xs))]
    exact ih (fun c hc => h c (List.mem_cons_of_mem x hc))

theorem WF_addCol {t : RawTable} {c : String} (h : WF t) : WF (addCol t c) := by
  unfold addCol
  split
  · exact h
  · intro r hr
    simp only [List.mem_map] at hr
    rcases hr with ⟨r0, hr0, rfl⟩
    simp [h r0 hr0]

theorem WF_foldl_addCol {L : List String} : ∀ {t : RawTable}, WF t → WF (L.foldl addCol t) := by
  induction L with
  | nil => intro t h; exact h
  | cons x xs ih => intro t h; rw [List.foldl_cons]; exact ih (WF_addCol h)

theorem WF_withCanonicalCols {t : RawTable} (h : WF t) : WF (withCanonicalCols t) :=
  WF_foldl_addCol h

theorem WF_load_log {t : RawTable} (h : WF t) : WF (load_log t) := by
  intro r hr
  exact WF_withCanonicalCols h r (List.mem_of_mem_filter hr)

theorem load_log_cols_mem {t : RawTable} {c : String} (h : c ∈ canonicalCols) :
    c ∈ (load_log t).cols :=
  mem_foldl_addCol (Or.inl h)

theorem load_log_rows_valid {t : RawTable} :
    ∀ r ∈ (load_log t).rows, rowValid (load_log t).cols r = true := by
  intro r hr
  exact (List.mem_filter.mp hr).2

theorem foldl_addCol_keep_empty {L : List String} : ∀ {t : RawTable} {c : String} {i : Nat},
    WF t → lookupIdx c t.cols = some i → (∀ r ∈ t.rows, r.getD i "" = "") →
    lookupIdx c (L.foldl addCol t).cols = some i ∧
      ∀ r ∈ (L.foldl addCol t).rows, r.getD i "" = "" := by
  induction L with
  | nil => intro t c i _ h1 h2; exact ⟨h1, h2⟩
  | cons x xs ih =>
    intro t c i hwf h1 h2
    rw [List.foldl_cons]
    apply ih (WF_addCol hwf)
    · unfold addCol
      split
      · exact h1
      · exact lookupIdx_append_left h1 [x]
    · unfold addCol
      split
      · exact h2
      · intro r hr
        simp only [List.mem_map] at hr
        rcases hr with ⟨r0, hr0, rfl⟩
        have hlt : i < t.cols.length := lookupIdx_lt_length h1
        have hlen : r0.length = t.cols.length := hwf r0 hr0
        rw [List.getD_eq_getElem?_getD, List.getElem?_append,
          if_pos (show i < r0.length by omega), ← List.getD_eq_getElem?_getD]
        exact h2 r0 hr0

theorem foldl_addCol_added_empty {L : List String} : ∀ {t : RawTable} {c : String},
    WF t → c ∈ L → c ∉ t.cols →
    ∃ i, lookupIdx c (L.foldl addCol t).cols = some i ∧
      ∀ r ∈ (L.foldl addCol t).rows, r.getD i "" = "" := by
  induction L with
  | nil => intro t c _ h _; simp at h
  | cons x xs ih =>
    intro t c hwf hmem hnot
    rw [List.foldl_cons]
    by_cases hcx : c = x
    · subst hcx
      have hcontains : t.cols.contains c ≠ true := by
        intro hc
        rcases List.contains_iff_exists_mem_beq.mp hc with ⟨a, ha, hb⟩
        exact hnot ((by simpa using hb : c = a) ▸ ha)
      have haddc : addCol t c = ⟨t.cols ++ [c], t.rows.map (fun r => r ++ [""])⟩ := by
        unfold addCol
        rw [if_neg hcontains]
      rw [haddc]
      have hlook : lookupIdx c (t.cols ++ [c]) = some t.cols.length :=
        lookupIdx_append_self hnot
      have hwf2 : WF (⟨t.cols ++ [c], t.rows.map (fun r => r ++ [""])⟩ : RawTable) := by
        rw [← haddc]
        exact WF_addCol hwf
      have hempty : ∀ r ∈ (⟨t.cols ++ [c], t.rows.map (fun r => r ++ [""])⟩ : RawTable).rows,
          r.getD t.cols.length "" = "" := by
        intro r hr
        simp only [List.mem_map] at hr
        rcases hr with ⟨r0, hr0, rfl⟩
        have hlen : r0.length = t.cols.length := hwf r0 hr0
        rw [List.getD_eq_getElem?_getD, ← hlen, List.getElem?_concat_length]
        rfl
      obtain ⟨hl2, he2⟩ := foldl_addCol_keep_empty hwf2 hlook hempty
      exact ⟨t.cols.length, hl2, he2⟩
    · have hmem2 : c ∈ xs := by
        rcases List.mem_cons.mp hmem with h | h
        · exact absurd h hcx
        · exact h
      have hnot2 : c ∉ (addCol t x).cols := by
        unfold addCol
        split
        · exact hnot
        · intro hm
          rcases List.mem_append.mp hm with hm | hm
          · exact hnot hm
          · simp at hm
            exact hcx hm
      exact ih (WF_addCol hwf) hmem2 hnot2

theorem load_log_missing_canonical_empty {t : RawTable} {c : String} (hwf : WF t)
    (hcan : c ∈ canonicalCols) (hnot : c ∉ t.cols) :
    ∀ r ∈ (load_log t).rows, getCell (load_log t).cols r c = "" := by
  intro r hr
  obtain ⟨i, hl, he⟩ := foldl_addCol_added_empty hwf hcan hnot
  have hr2 : r ∈ (withCanonicalCols t).rows := List.mem_of_mem_filter hr
  have hl2 : lookupIdx c (load_log t).cols = some i := hl
  rw [getCell, hl2]
  exact he r hr2

theorem newLogRow_cells (cols : List String) (d : DT) (w : Option Rat) (memo : String)
    (files : List String) (hdt : COL_DT ∈ cols) (hw : COL_W ∈ cols)
    (hmemo : COL_MEMO ∈ cols) (hph : COL_PHOTOS ∈ cols) :
    getCell cols (newLogRow cols d w memo files) COL_DT = to_dt_str d ∧
    getCell cols (newLogRow cols d w memo files) COL_W = wcell w ∧
    getCell cols (newLogRow cols d w memo files) COL_MEMO = memo ∧
    getCell cols (newLogRow cols d w memo files) COL_PHOTOS = join_photos files := by
  refine ⟨?_, ?_, ?_, ?_⟩
  · rw [newLogRow, getCell_map hdt]
    simp
  · rw [newLogRow, getCell_map hw]
    rw [if_neg (by decide), if_pos rfl]
  · rw [newLogRow, getCell_map hmemo]
    rw [if_neg (by decide), if_neg (by decide), if_pos rfl]
  · rw [newLogRow, getCell_map hph]
    rw [if_neg (by decide), if_neg (by decide), if_neg (by decide), if_pos rfl]

theorem load_log_stable {T : RawTable} (hc : ∀ c ∈ canonicalCols, c ∈ T.cols)
    (hv : ∀ r ∈ T.rows, rowValid T.cols r = true) : load_log T = T := by
  have h1 : withCanonicalCols T = T := foldl_addCol_of_mem hc
  show (⟨(withCanonicalCols T).cols,
    (withCanonicalCols T).rows.filter (rowValid (withCanonicalCols T).cols)⟩ : RawTable) = T
  rw [h1, List.filter_eq_self.mpr hv]

theorem load_log_append_log_row (file : RawTable) (d : DT) (w : Option Rat)
    (memo : String) (files : List String) (hd : validDT d) :
    load_log (append_log_row file d w memo files) =
      ⟨(load_log file).cols,
       (load_log file).rows ++ [newLogRow (load_log file).cols d w memo files]⟩ := by
  have hcols : ∀ c ∈ canonicalCols, c ∈ (load_log file).cols :=
    fun c hc => load_log_cols_mem hc
  have hnew : rowValid (load_log file).cols
      (newLogRow (load_log file).cols d w memo files) = true := by
    unfold rowValid
    rw [(newLogRow_cells (load_log file).cols d w memo files (hcols _ (by decide))
      (hcols _ (by decide)) (hcols _ (by decide)) (hcols _ (by decide))).1]
    exact pd_to_datetime_to_dt_str_isSome d hd
  have happ : append_log_row file d w memo files =
      ⟨(load_log file).cols,
       (load_log file).rows ++ [newLogRow (load_log file).cols d w memo files]⟩ := rfl
  rw [happ]
  apply load_log_stable
  · exact hcols
  · intro r hr
    rcases List.mem_append.mp hr with hr | hr
    · exact load_log_rows_valid r hr
    · rcases List.mem_cons.mp hr with rfl | hr
      · exact hnew
      · simp at hr

/-! ## Claims -/

/-- C6 counterexample: the claimed serialize-after-round-trip stability
fails on the valid (trimmed, non-empty) reference list `["nan"]`:
`serialize(["nan"]) = "nan"`, but `deserialize("nan") = []` because
`split_photos` treats the literal cell text `"nan"` as a pandas missing
value, so re-serialising yields `""` ≠ `"nan"`. -/
theorem C6_counterexample :
    join_photos (split_photos (join_photos ["nan"])) ≠ join_photos ["nan"] ∧
    join_photos ["nan"] = "nan" ∧ split_photos "nan" = [] := by decide

/-- C6 (amended): the four stated codec identities hold, and
`split ∘ join` is the identity — hence serialisation is stable under a
deserialize/serialize round trip — for every reference list whose entries
are non-empty, stripped and delimiter-free and that is not the single
entry `"nan"` (case-insensitively); the `"nan"` singleton is the one
exception, per the counterexample. -/
theorem C6_photo_codec_round_trip :
    split_photos (join_photos ["a.jpg", "b.png"]) = ["a.jpg", "b.png"] ∧
    join_photos [] = "" ∧
    split_photos "" = [] ∧
    split_photos "nan" = [] ∧
    (∀ files : List String, GoodRefs files →
      split_photos (join_photos files) = files ∧
      join_photos (split_photos (join_photos files)) = join_photos files) := by
  refine ⟨by decide, by decide, by decide, by decide, ?_⟩
  intro files h
  have h1 := split_join_photos h
  exact ⟨h1, by rw [h1]⟩

/-- C6 witness: a concrete good reference list round-trips. -/
theorem C6_witness :
    GoodRefs ["x.png"] ∧ split_photos (join_photos ["x.png"]) = ["x.png"] :=
  ⟨by decide, (C6_photo_codec_round_trip.2.2.2.2 ["x.png"] (by decide)).1⟩

/-- C1 counterexample: `load_log` applies no rename map.  On a file whose
weight column uses the legacy name `"weight_g"` with value `1500` (and no
photo column), the loaded record's canonical weight cell is the synthesized
empty cell, not `1500.0` as the claim states. -/
theorem C1_counterexample :
    (load_log c1LegacyFile).rows.length = 1 ∧
    getCell (load_log c1LegacyFile).cols ((load_log c1LegacyFile).rows.getD 0 [])
      COL_W = "" ∧
    ("" : String) ≠ "1500.0" ∧
    split_photos (getCell (load_log c1LegacyFile).cols
      ((load_log c1LegacyFile).rows.getD 0 []) COL_PHOTOS) = [] := by decide

/-- C1 (amended): `load_log` performs no column renaming; it only
synthesizes each missing canonical column with the empty value.  Hence on
the legacy-named file the single record survives (its canonical timestamp
parses) with an *empty* weight and empty `photo_refs` — the legacy
column's value is not migrated.  In general every canonical column is
present after load, and a canonical column absent from the on-disk header
reads as the empty cell in every loaded row. -/
theorem C1_no_rename_map :
    ((load_log c1LegacyFile).rows.length = 1 ∧
     getCell (load_log c1LegacyFile).cols ((load_log c1LegacyFile).rows.getD 0 [])
       COL_W = "" ∧
     split_photos (getCell (load_log c1LegacyFile).cols
       ((load_log c1LegacyFile).rows.getD 0 []) COL_PHOTOS) = []) ∧
    (∀ (t : RawTable) (c : String), WF t → c ∈ canonicalCols →
      c ∈ (load_log t).cols ∧
      (c ∉ t.cols → ∀ r ∈ (load_log t).rows, getCell (load_log t).cols r c = "")) := by
  refine ⟨by decide, ?_⟩
  intro t c hwf hc
  exact ⟨load_log_cols_mem hc,
    fun hnot r hr => load_log_missing_canonical_empty hwf hc hnot r hr⟩

/-- C1 witness: on the legacy file the synthesized photo column reads
empty. -/
theorem C1_witness :
    WF c1LegacyFile ∧ COL_PHOTOS ∈ canonicalCols ∧ COL_PHOTOS ∉ c1LegacyFile.cols ∧
    getCell (load_log c1LegacyFile).cols ((load_log c1LegacyFile).rows.getD 0 [])
      COL_PHOTOS = "" :=
  ⟨by decide, by decide, by decide,
    (C1_no_rename_map.2 c1LegacyFile COL_PHOTOS (by decide) (by decide)).2
      (by decide) ((load_log c1LegacyFile).rows.getD 0 []) (by decide)⟩

/-- C4 counterexample: rows are *not* filtered by the fixed
`"%Y-%m-%d %H:%M"` format.  A date-only timestamp `"2024-06-01"` fails the
fixed format (`parse_dt_str` rejects it) yet the row is retained by
`load_log`, because the flexible pandas coercion accepts it. -/
theorem C4_counterexample :
    parse_dt_str "2024-06-01" = none ∧
    (load_log c4DateOnlyFile).rows.length = 1 := by decide

/-- C4 (amended): `load_log` filters rows by the *flexible*
`pd.to_datetime(..., errors="coerce")` coercion, not by the fixed
`"%Y-%m-%d %H:%M"` format: blank timestamps and garbage such as
`"not-a-date"` are silently dropped (the stated scenarios hold), every
surviving row's timestamp coerces, but a string like `"2024-06-01"` that
fails the fixed format while coercing flexibly is retained. -/
theorem C4_flexible_timestamp_filter :
    (load_log c4NotADateFile).rows.length = 0 ∧
    (load_log c4BlankFile).rows.length = 0 ∧
    (∀ t : RawTable, ∀ r ∈ (load_log t).rows,
      (pd_to_datetime (getCell (load_log t).cols r COL_DT)).isSome = true) ∧
    (load_log c4DateOnlyFile).rows.length = 1 ∧
    parse_dt_str "2024-06-01" = none := by
  refine ⟨by decide, by decide, ?_, by decide, by decide⟩
  intro t r hr
  exact load_log_rows_valid r hr

/-- C4 witness: the surviving date-only row indeed coerces flexibly. -/
theorem C4_witness :
    (load_log c4DateOnlyFile).rows.getD 0 [] ∈ (load_log c4DateOnlyFile).rows ∧
    (pd_to_datetime (getCell (load_log c4DateOnlyFile).cols
      ((load_log c4DateOnlyFile).rows.getD 0 []) COL_DT)).isSome = true :=
  ⟨by decide, C4_flexible_timestamp_filter.2.2.1 c4DateOnlyFile
    ((load_log c4DateOnlyFile).rows.getD 0 []) (by decide)⟩

/-- C5: `append` followed by `load` yields exactly one more valid record,
and the new record (the last one) carries the appended values verbatim at
cell level — the timestamp rendered to minute precision by
`strftime("%Y-%m-%d %H:%M")` (and reparsing to the same minute), the
weight cell as written by `append_log_row`, the memo unchanged, and the
photo list serialized by `join_photos`; for a well-formed (round-trippable)
reference list the surfaced `photo_refs` equal the appended list exactly. -/
theorem C5_append_then_load (file : RawTable) (d : DT) (w : Option Rat) (memo : String)
    (files : List String) (hd : validDT d) :
    (load_log (append_log_row file d w memo files)).rows.length
        = (load_log file).rows.length + 1 ∧
    (load_log (append_log_row file d w memo files)).rows.getLast?
        = some (newLogRow (load_log file).cols d w memo files) ∧
    getCell (load_log file).cols (newLogRow (load_log file).cols d w memo files)
      COL_DT = to_dt_str d ∧
    getCell (load_log file).cols (newLogRow (load_log file).cols d w memo files)
      COL_W = wcell w ∧
    getCell (load_log file).cols (newLogRow (load_log file).cols d w memo files)
      COL_MEMO = memo ∧
    getCell (load_log file).cols (newLogRow (load_log file).cols d w memo files)
      COL_PHOTOS = join_photos files ∧
    pd_to_datetime (to_dt_str d) = some ⟨d.year, d.month, d.day, d.hour, d.minute, 0⟩ ∧
    (GoodRefs files →
      split_photos (getCell (load_log file).cols
        (newLogRow (load_log file).cols d w memo files) COL_PHOTOS) = files) := by
  have hL := load_log_append_log_row file d w memo files hd
  have hcells := newLogRow_cells (load_log file).cols d w memo files
    (load_log_cols_mem (by decide)) (load_log_cols_mem (by decide))
    (load_log_cols_mem (by decide)) (load_log_cols_mem (by decide))
  refine ⟨?_, ?_, hcells.1, hcells.2.1, hcells.2.2.1, hcells.2.2.2,
    pd_to_datetime_to_dt_str d hd, ?_⟩
  · rw [hL]
    simp
  · rw [hL]
    simp [List.getLast?_concat]
  · intro hg
    rw [hcells.2.2.2]
    exact split_join_photos hg

/-- C5 witness: a concrete append on the empty log. -/
theorem C5_witness :
    validDT sampleDT ∧ GoodRefs ["a.jpg"] ∧
    (load_log (append_log_row emptyLog sampleDT (some 1520) "trim" ["a.jpg"])).rows.length
      = (load_log emptyLog).rows.length + 1 ∧
    split_photos (getCell (load_log emptyLog).cols
      (newLogRow (load_log emptyLog).cols sampleDT (some 1520) "trim" ["a.jpg"])
      COL_PHOTOS) = ["a.jpg"] :=
  ⟨by decide, by decide,
    (C5_append_then_load emptyLog sampleDT (some 1520) "trim" ["a.jpg"] (by decide)).1,
    (C5_append_then_load emptyLog sampleDT (some 1520) "trim" ["a.jpg"] (by decide)).2.2.2.2.2.2.2
      (by decide)⟩

/-- C9: the best-effort asset deletion never propagates.  The full
photo-removal operation returns `Except.ok` of exactly the table the pure
table edit produces, for every asset-existence flag and every outcome of
the underlying `os.remove` (vanished file, permission error);
`safe_delete_file` converts an `os.remove` exception into `false` instead
of raising, and succeeds trivially when the file does not exist. -/
theorem C9_asset_deletion_swallowed (file : RawTable) (row_index : Int)
    (filename : String) (assetExists : Bool) (removeResult : Except OsErr Unit) :
    delete_one_photo_run file row_index filename assetExists removeResult =
      Except.ok (delete_one_photo_from_row file row_index filename) ∧
    (∀ e : OsErr, safe_delete_file true (Except.error e) = false) ∧
    safe_delete_file false removeResult = true := by
  refine ⟨?_, fun e => rfl, rfl⟩
  unfold delete_one_photo_run delete_one_photo_from_row
  dsimp only
  split <;> rfl

theorem firstIdxWhere_lt {p : List String → Bool} : ∀ {rows : List (List String)} {i : Nat},
    firstIdxWhere p rows = some i → i < rows.length := by
  intro rows
  induction rows with
  | nil => intro i h; simp [firstIdxWhere] at h
  | cons r rs ih =>
    intro i h
    rw [firstIdxWhere] at h
    by_cases hp : p r
    · rw [if_pos hp] at h
      cases h
      simp
    · rw [if_neg hp] at h
      cases hj : firstIdxWhere p rs with
      | none => rw [hj] at h; simp at h
      | some j =>
        rw [hj] at h
        have h2 : j + 1 = i := Option.some.inj h
        subst h2
        simpa using ih hj

theorem getD_mem_of_lt {l : List (List String)} {i : Nat} (h : i < l.length) :
    l.getD i [] ∈ l := by
  have h2 : l.getD i [] = l[i] := by
    rw [List.getD_eq_getElem?_getD, List.getElem?_eq_getElem h]
    rfl
  rw [h2]
  exact List.getElem_mem h

theorem getD_set_self {l : List (List String)} {i : Nat} {v : List String}
    (h : i < l.length) : (l.set i v).getD i [] = v := by
  rw [List.getD_eq_getElem?_getD, List.getElem?_set_eq h]
  rfl

theorem getD_set_ne {l : List (List String)} {i j : Nat} {v : List String}
    (h : i ≠ j) : (l.set i v).getD j [] = l.getD j [] := by
  rw [List.getD_eq_getElem?_getD, List.getD_eq_getElem?_getD, List.getElem?_set_ne h]

theorem recordSession_eq {master log : RawTable} {selId : String} {d : DT}
    {wIn : Rat} {memo : String} {files : List String} {i : Nat}
    (hfind : firstIdxWhere (fun r => getCell master.cols r masterIdCol == selId)
      master.rows = some i) :
    recordSession master log selId d wIn memo files =
      some (⟨master.cols, master.rows.set i
          (setCell master.cols (master.rows.getD i []) masterNextCol "")⟩,
        append_log_row log d (if wIn = 0 then none else some wIn) (pyStrip memo) files) := by
  unfold recordSession
  rw [hfind]

/-- C3: the "record completed session" handler clears the subject's
`next_appointment` unconditionally: whatever the prior cell value of the
selected row was, after the workflow the saved roster's cell for that
subject is the empty string, which `parse_dt_str` reads as absent.  The
session timestamp `d` is arbitrary and is never compared with the pending
appointment. -/
theorem C3_record_clears_next (master log : RawTable) (selId : String) (d : DT)
    (wIn : Rat) (memo : String) (files : List String) (i : Nat)
    (hwf : WF master) (hcol : masterNextCol ∈ master.cols)
    (hfind : firstIdxWhere (fun r => getCell master.cols r masterIdCol == selId)
      master.rows = some i) :
    ∃ m2 l2, recordSession master log selId d wIn memo files = some (m2, l2) ∧
      getCell m2.cols (m2.rows.getD i []) masterNextCol = "" ∧
      parse_dt_str (getCell m2.cols (m2.rows.getD i []) masterNextCol) = none := by
  have hlt := firstIdxWhere_lt hfind
  have hc : getCell master.cols
      ((master.rows.set i
        (setCell master.cols (master.rows.getD i []) masterNextCol "")).getD i [])
      masterNextCol = "" := by
    rw [getD_set_self hlt]
    exact getCell_setCell_same hcol
      (le_of_eq (hwf (master.rows.getD i []) (getD_mem_of_lt hlt)).symm)
  exact ⟨_, _, recordSession_eq hfind, hc, by rw [hc]; decide⟩

/-- C3 witness: recording a session for `R01`, whose appointment was set,
leaves its cell empty. -/
theorem C3_witness :
    WF c3Master ∧ masterNextCol ∈ c3Master.cols ∧
    firstIdxWhere (fun r => getCell c3Master.cols r masterIdCol == "R01")
      c3Master.rows = some 0 ∧
    ∃ m2 l2, recordSession c3Master emptyLog "R01" sampleDT 0 "memo" [] = some (m2, l2) ∧
      getCell m2.cols (m2.rows.getD 0 []) masterNextCol = "" ∧
      parse_dt_str (getCell m2.cols (m2.rows.getD 0 []) masterNextCol) = none :=
  ⟨by decide, by decide, by decide,
    C3_record_clears_next c3Master emptyLog "R01" sampleDT 0 "memo" [] 0
      (by decide) (by decide) (by decide)⟩

/-- C7 counterexample: a session recorded with a *measured* weight of zero
is stored as the absent cell `""` — not as the numeric cell `"0.0"` that
`append_log_row` writes for an explicit `0.0` — because the tab-2 handler
maps the widget value `0.0` to `None` (`w = None if weight_g == 0.0 else
float(weight_g)`).  Absence therefore does not mean "not measured". -/
theorem C7_counterexample :
    (recordSession c7Master emptyLog "R01" sampleDT 0 "memo" []).map
      (fun x => getCell x.2.cols (x.2.rows.getLast?.getD []) COL_W) = some "" ∧
    wcell (some 0) = "0.0" ∧ ("" : String) ≠ "0.0" := by decide

/-- C7 (amended): through the recording workflow the stored weight cell is
absent (`""`) iff the input weight equals `0.0` — the widget's "not
entered" sentinel — and any nonzero input is stored as its numeric cell.
Zero is conflated with "not measured" by the handler's sentinel convention,
contrary to the claim. -/
theorem C7_zero_weight_conflated (master log : RawTable) (selId : String) (d : DT)
    (wIn : Rat) (memo : String) (files : List String) (i : Nat)
    (hfind : firstIdxWhere (fun r => getCell master.cols r masterIdCol == selId)
      master.rows = some i) :
    ∃ m2 l2, recordSession master log selId d wIn memo files = some (m2, l2) ∧
      l2.rows.getLast? = some (newLogRow (load_log log).cols d
        (if wIn = 0 then none else some wIn) (pyStrip memo) files) ∧
      (wIn = 0 → getCell l2.cols (l2.rows.getLast?.getD []) COL_W = "") ∧
      (wIn ≠ 0 → getCell l2.cols (l2.rows.getLast?.getD []) COL_W = wcell (some wIn)) := by
  refine ⟨_, _, recordSession_eq hfind, ?_, ?_, ?_⟩
  · exact List.getLast?_concat _
  · intro h0
    have hcolseq : (append_log_row log d (if wIn = 0 then none else some wIn)
        (pyStrip memo) files).cols = (load_log log).cols := rfl
    have hlast : (append_log_row log d (if wIn = 0 then none else some wIn)
        (pyStrip memo) files).rows.getLast?.getD [] =
        newLogRow (load_log log).cols d (if wIn = 0 then none else some wIn)
          (pyStrip memo) files := by
      show (((load_log log).rows ++ [newLogRow (load_log log).cols d
        (if wIn = 0 then none else some wIn) (pyStrip memo) files]).getLast?).getD [] = _
      simp [List.getLast?_concat]
    rw [hcolseq, hlast,
      (newLogRow_cells (load_log log).cols d (if wIn = 0 then none else some wIn)
        (pyStrip memo) files
        (load_log_cols_mem (by decide)) (load_log_cols_mem (by decide))
        (load_log_cols_mem (by decide)) (load_log_cols_mem (by decide))).2.1,
      if_pos h0]
    rfl
  · intro hne
    have hcolseq : (append_log_row log d (if wIn = 0 then none else some wIn)
        (pyStrip memo) files).cols = (load_log log).cols := rfl
    have hlast : (append_log_row log d (if wIn = 0 then none else some wIn)
        (pyStrip memo) files).rows.getLast?.getD [] =
        newLogRow (load_log log).cols d (if wIn = 0 then none else some wIn)
          (pyStrip memo) files := by
      show (((load_log log).rows ++ [newLogRow (load_log log).cols d
        (if wIn = 0 then none else some wIn) (pyStrip memo) files]).getLast?).getD [] = _
      simp [List.getLast?_concat]
    rw [hcolseq, hlast,
      (newLogRow_cells (load_log log).cols d (if wIn = 0 then none else some wIn)
        (pyStrip memo) files
        (load_log_cols_mem (by decide)) (load_log_cols_mem (by decide))
        (load_log_cols_mem (by decide)) (load_log_cols_mem (by decide))).2.1,
      if_neg hne]

/-- C7 witness: a nonzero weight (`1520`) is stored as its numeric cell. -/
theorem C7_witness :
    firstIdxWhere (fun r => getCell c7Master.cols r masterIdCol == "R01")
      c7Master.rows = some 0 ∧
    ∃ m2 l2, recordSession c7Master emptyLog "R01" sampleDT 1520 "memo" [] = some (m2, l2) ∧
      l2.rows.getLast? = some (newLogRow (load_log emptyLog).cols sampleDT
        (if (1520 : Rat) = 0 then none else some 1520) (pyStrip "memo") []) ∧
      (((1520 : Rat) = 0) → getCell l2.cols (l2.rows.getLast?.getD []) COL_W = "") ∧
      (((1520 : Rat) ≠ 0) → getCell l2.cols (l2.rows.getLast?.getD []) COL_W
        = wcell (some 1520)) :=
  ⟨by decide,
    C7_zero_weight_conflated c7Master emptyLog "R01" sampleDT 1520 "memo" [] 0 (by decide)⟩

theorem delete_out_of_range_eq (file : RawTable) (row_index : Int) (filename : String)
    (h : row_index < 0 ∨ ((load_log file).rows.length : Int) ≤ row_index) :
    delete_one_photo_from_row file row_index filename = file := by
  unfold delete_one_photo_from_row
  dsimp only
  rw [if_pos h]

theorem delete_in_range_eq (file : RawTable) (row_index : Int) (filename : String)
    (h0 : 0 ≤ row_index) (hlt : row_index < ((load_log file).rows.length : Int)) :
    delete_one_photo_from_row file row_index filename =
      ⟨(load_log file).cols,
       (load_log file).rows.set row_index.toNat
         (setCell (load_log file).cols ((load_log file).rows.getD row_index.toNat [])
           COL_PHOTOS
           (join_photos ((split_photos (getCell (load_log file).cols
             ((load_log file).rows.getD row_index.toNat []) COL_PHOTOS)).filter
             (fun p => !(p == filename)))))⟩ := by
  unfold delete_one_photo_from_row
  dsimp only
  rw [if_neg (by intro h; rcases h with h | h <;> omega)]

/-- C2 counterexample: on a record whose `photo_refs` list the same
reference twice, one removal call deletes *both* occurrences (the code
filters the whole list), not exactly one as the claim states. -/
theorem C2_counterexample :
    split_photos (getCell c2DupFile.cols (c2DupFile.rows.getD 0 []) COL_PHOTOS)
      = ["a.jpg", "a.jpg"] ∧
    split_photos (getCell (delete_one_photo_from_row c2DupFile 0 "a.jpg").cols
      ((delete_one_photo_from_row c2DupFile 0 "a.jpg").rows.getD 0 []) COL_PHOTOS)
      = [] := by decide

/-- C2 (amended): for an in-range index, `delete_one_photo_from_row`
removes *every* occurrence of `ref` from the addressed record's
`photo_refs` (exactly one when the reference is not duplicated, as with
the app's uuid-unique file names), re-serialising that one cell, and
leaves all other cells of that record and all other records of the loaded
table unchanged. -/
theorem C2_delete_filters_all (file : RawTable) (row_index : Int) (filename : String)
    (hwf : WF file) (h0 : 0 ≤ row_index)
    (hlt : row_index < ((load_log file).rows.length : Int)) :
    (delete_one_photo_from_row file row_index filename).cols = (load_log file).cols ∧
    (delete_one_photo_from_row file row_index filename).rows.length
      = (load_log file).rows.length ∧
    (∀ j : Nat, j ≠ row_index.toNat →
      (delete_one_photo_from_row file row_index filename).rows.getD j []
        = (load_log file).rows.getD j []) ∧
    (∀ c : String, c ≠ COL_PHOTOS →
      getCell (load_log file).cols
        ((delete_one_photo_from_row file row_index filename).rows.getD row_index.toNat []) c
      = getCell (load_log file).cols ((load_log file).rows.getD row_index.toNat []) c) ∧
    getCell (load_log file).cols
      ((delete_one_photo_from_row file row_index filename).rows.getD row_index.toNat [])
      COL_PHOTOS
      = join_photos ((split_photos (getCell (load_log file).cols
          ((load_log file).rows.getD row_index.toNat []) COL_PHOTOS)).filter
          (fun p => !(p == filename))) ∧
    (GoodRefs ((split_photos (getCell (load_log file).cols
        ((load_log file).rows.getD row_index.toNat []) COL_PHOTOS)).filter
        (fun p => !(p == filename))) →
      split_photos (getCell (load_log file).cols
        ((delete_one_photo_from_row file row_index filename).rows.getD row_index.toNat [])
        COL_PHOTOS)
      = (split_photos (getCell (load_log file).cols
          ((load_log file).rows.getD row_index.toNat []) COL_PHOTOS)).filter
          (fun p => !(p == filename))) := by
  have hres := delete_in_range_eq file row_index filename h0 hlt
  have hiLt : row_index.toNat < (load_log file).rows.length := by omega
  have hrowmem := getD_mem_of_lt hiLt
  have hlen : ((load_log file).rows.getD row_index.toNat []).length
      = (load_log file).cols.length := WF_load_log hwf _ hrowmem
  have hphmem : COL_PHOTOS ∈ (load_log file).cols := load_log_cols_mem (by decide)
  rw [hres]
  dsimp only
  refine ⟨rfl, List.length_set _ _ _, ?_, ?_, ?_, ?_⟩
  · intro j hj
    exact getD_set_ne (fun he => hj he.symm)
  · intro c hc
    rw [getD_set_self hiLt]
    exact getCell_setCell_ne hc
  · rw [getD_set_self hiLt]
    exact getCell_setCell_same hphmem (le_of_eq hlen.symm)
  · intro hg
    rw [getD_set_self hiLt, getCell_setCell_same hphmem (le_of_eq hlen.symm)]
    exact split_join_photos hg

/-- C2 witness: deleting from the duplicate-reference log keeps the record
count. -/
theorem C2_witness :
    WF c2DupFile ∧ (0 : Int) ≤ 0 ∧ (0 : Int) < ((load_log c2DupFile).rows.length : Int) ∧
    (delete_one_photo_from_row c2DupFile 0 "a.jpg").rows.length
      = (load_log c2DupFile).rows.length :=
  ⟨by decide, by decide, by decide,
    (C2_delete_filters_all c2DupFile 0 "a.jpg" (by decide) (by decide) (by decide)).2.1⟩

/-- C8 counterexample: a photo-removal call whose reference is absent from
the addressed (in-range) record is *not* a no-op on the persisted store:
the call still writes back the loaded, normalized table, permanently
deleting the corrupt first row of the file. -/
theorem C8_counterexample :
    (0 : Int) ≤ 0 ∧ (0 : Int) < ((load_log c8BadFile).rows.length : Int) ∧
    "zzz" ∉ split_photos (getCell (load_log c8BadFile).cols
      ((load_log c8BadFile).rows.getD 0 []) COL_PHOTOS) ∧
    delete_one_photo_from_row c8BadFile 0 "zzz" ≠ c8BadFile := by decide

/-- C8 (amended): an out-of-range index returns before saving, leaving the
on-disk file byte-identical; an in-range call with an absent reference
leaves every record's parsed `photo_refs` unchanged (its cell is merely
re-serialised) but still persists the loaded normalized table — which can
differ from the original file — and the asset deletion is still attempted
(see C9's operation model). -/
theorem C8_noop_cases (file : RawTable) (row_index : Int) (filename : String) :
    ((row_index < 0 ∨ ((load_log file).rows.length : Int) ≤ row_index) →
      delete_one_photo_from_row file row_index filename = file) ∧
    (WF file → 0 ≤ row_index → row_index < ((load_log file).rows.length : Int) →
      filename ∉ split_photos (getCell (load_log file).cols
        ((load_log file).rows.getD row_index.toNat []) COL_PHOTOS) →
      delete_one_photo_from_row file row_index filename =
        ⟨(load_log file).cols, (load_log file).rows.set row_index.toNat
          (setCell (load_log file).cols ((load_log file).rows.getD row_index.toNat [])
            COL_PHOTOS (join_photos (split_photos (getCell (load_log file).cols
              ((load_log file).rows.getD row_index.toNat []) COL_PHOTOS))))⟩ ∧
      (notNanB (split_photos (getCell (load_log file).cols
          ((load_log file).rows.getD row_index.toNat []) COL_PHOTOS)) = true →
        split_photos (getCell (load_log file).cols
          ((delete_one_photo_from_row file row_index filename).rows.getD
            row_index.toNat []) COL_PHOTOS)
        = split_photos (getCell (load_log file).cols
            ((load_log file).rows.getD row_index.toNat []) COL_PHOTOS))) := by
  constructor
  · exact delete_out_of_range_eq file row_index filename
  · intro hwf h0 hlt hnotmem
    have hfilter : (split_photos (getCell (load_log file).cols
        ((load_log file).rows.getD row_index.toNat []) COL_PHOTOS)).filter
        (fun p => !(p == filename))
        = split_photos (getCell (load_log file).cols
            ((load_log file).rows.getD row_index.toNat []) COL_PHOTOS) := by
      rw [List.filter_eq_self]
      intro p hp
      simp only [Bool.not_eq_eq_eq_not, Bool.not_true, beq_eq_false_iff_ne, ne_eq]
      intro he
      exact hnotmem (he ▸ hp)
    have hres := delete_in_range_eq file row_index filename h0 hlt
    rw [hfilter] at hres
    refine ⟨hres, ?_⟩
    intro hnan
    have hgood : GoodRefs (split_photos (getCell (load_log file).cols
        ((load_log file).rows.getD row_index.toNat []) COL_PHOTOS)) :=
      goodRefs_iff.mpr ⟨split_photos_parts _, hnan⟩
    have hiLt : row_index.toNat < (load_log file).rows.length := by omega
    have hlen : ((load_log file).rows.getD row_index.toNat []).length
        = (load_log file).cols.length := WF_load_log hwf _ (getD_mem_of_lt hiLt)
    rw [hres]
    dsimp only
    rw [getD_set_self hiLt,
      getCell_setCell_same (load_log_cols_mem (by decide)) (le_of_eq hlen.symm)]
    exact split_join_photos hgood

/-- C8 witness: an out-of-range call on the empty log leaves the file
untouched. -/
theorem C8_witness :
    ((5 : Int) < 0 ∨ ((load_log emptyLog).rows.length : Int) ≤ 5) ∧
    delete_one_photo_from_row emptyLog 5 "a.jpg" = emptyLog :=
  ⟨by decide, (C8_noop_cases emptyLog 5 "a.jpg").1 (by decide)⟩

/-- C10 counterexample: not every photo-removal call normalizes the file —
an out-of-range call returns before saving, and a corrupt (unparsable-
timestamp) row that was on disk is still on disk afterwards, merely hidden
from reads. -/
theorem C10_counterexample :
    delete_one_photo_from_row c10BadFile 5 "x.jpg" = c10BadFile ∧
    (pd_to_datetime (getCell c10BadFile.cols (c10BadFile.rows.getD 0 []) COL_DT)).isSome
      = false := by decide

/-- C10 (amended): every *persisting* mutation writes back the loaded
normalized table: after any append (with a real calendar timestamp), and
after any photo removal with an in-range index, every row of the saved
file has a timestamp the flexible coercion parses — corrupt rows are
permanently dropped.  An out-of-range removal writes nothing, so it does
not purge corrupt rows (see the counterexample). -/
theorem C10_mutations_persist_normalized (file : RawTable) (d : DT) (w : Option Rat)
    (memo : String) (files : List String) (row_index : Int) (filename : String) :
    (validDT d → ∀ r ∈ (append_log_row file d w memo files).rows,
      (pd_to_datetime (getCell (append_log_row file d w memo files).cols r
        COL_DT)).isSome = true) ∧
    (WF file → 0 ≤ row_index → row_index < ((load_log file).rows.length : Int) →
      ∀ r ∈ (delete_one_photo_from_row file row_index filename).rows,
        (pd_to_datetime (getCell (delete_one_photo_from_row file row_index filename).cols
          r COL_DT)).isSome = true) := by
  constructor
  · intro hd r hr
    have hcols : (append_log_row file d w memo files).cols = (load_log file).cols := rfl
    rw [hcols]
    have hr2 : r ∈ (load_log file).rows ++
        [newLogRow (load_log file).cols d w memo files] := hr
    rcases List.mem_append.mp hr2 with hr3 | hr3
    · exact load_log_rows_valid r hr3
    · rcases List.mem_cons.mp hr3 with rfl | hr4
      · rw [(newLogRow_cells (load_log file).cols d w memo files
          (load_log_cols_mem (by decide)) (load_log_cols_mem (by decide))
          (load_log_cols_mem (by decide)) (load_log_cols_mem (by decide))).1]
        exact pd_to_datetime_to_dt_str_isSome d hd
      · simp at hr4
  · intro hwf h0 hlt r hr
    have hres := delete_in_range_eq file row_index filename h0 hlt
    rw [hres] at hr ⊢
    dsimp only at hr ⊢
    rcases List.mem_or_eq_of_mem_set hr with hr2 | rfl
    · exact load_log_rows_valid r hr2
    · have hiLt : row_index.toNat < (load_log file).rows.length := by omega
      rw [getCell_setCell_ne (by decide : COL_DT ≠ COL_PHOTOS)]
      exact load_log_rows_valid _ (getD_mem_of_lt hiLt)

/-- C10 witness: appending to the corrupt-row file leaves only
parsable-timestamp rows on disk. -/
theorem C10_witness :
    validDT sampleDT ∧
    ∀ r ∈ (append_log_row c10BadFile sampleDT none "" []).rows,
      (pd_to_datetime (getCell (append_log_row c10BadFile sampleDT none "" []).cols r
        COL_DT)).isSome = true :=
  ⟨by decide,
    (C10_mutations_persist_normalized c10BadFile sampleDT none "" [] 0 "x").1 (by decide)⟩
